import Mathlib

/-!
Verification of the spiral-rs Contents-line grammar parser, streaming entry
iterator, library reducer and name translator, shallowly embedded from the
Rust sources (apt_parser/src/contents/mod.rs, spiral/src/translate.rs,
spiral/src/metadata/contents.rs).

Modelling conventions: bytes are Nat; Rust strings are byte lists, with
String::from_utf8_lossy modelled as the identity (all inputs of interest are
ASCII); a nom parser over bytes is a function returning Option (remaining,
value); fallible slicing that panics in Rust is modelled by an explicit
panic result; HashMap is modelled as an association list whose insert
replaces any existing binding for the key.
-/

namespace Spiral

/-- nom is_space: ASCII space or tab only (newline is not a space). -/
def is_space (c : Nat) : Bool := c == 32 || c == 9

/-- nom is_digit. -/
def is_digit (c : Nat) : Bool := 48 ≤ c && c ≤ 57

/-- nom is_alphanumeric. -/
def is_alphanumeric (c : Nat) : Bool :=
  (48 ≤ c && c ≤ 57) || (65 ≤ c && c ≤ 90) || (97 ≤ c && c ≤ 122)

/-- contents/mod.rs is_section_name: alphanumeric or a hyphen. -/
def is_section_name (c : Nat) : Bool := is_alphanumeric c || c == 45

/-- contents/mod.rs is_package_name: lowercase letter, digit, or one of + - _ . -/
def is_package_name (c : Nat) : Bool :=
  (97 ≤ c && c ≤ 122) || (48 ≤ c && c ≤ 57) || c == 43 || c == 45 || c == 95 || c == 46

/-- contents/mod.rs is_soname: alphanumeric or one of + - _ -/
def is_soname (c : Nat) : Bool := is_alphanumeric c || c == 43 || c == 45 || c == 95

/-- contents/mod.rs is_file_name: any byte except tab and forward slash. -/
def is_file_name (c : Nat) : Bool := !(c == 9 || c == 47)

/-- Rust char::is_whitespace restricted to ASCII: 0x09..0x0D and 0x20. -/
def rustWhitespace (c : Nat) : Bool :=
  c == 9 || c == 10 || c == 11 || c == 12 || c == 13 || c == 32

/-- Rust str::trim_end. -/
def trimEnd (l : List Nat) : List Nat := (l.reverse.dropWhile rustWhitespace).reverse

/-- Byte list of an ASCII string literal. -/
def strBytes (s : String) : List Nat := s.data.map Char.toNat

/-- Decimal rendering helper with explicit fuel (fuel larger than the number
of digits always suffices). -/
def natDecCore : Nat → Nat → List Nat → List Nat
  | 0, _, acc => acc
  | fuel + 1, n, acc =>
    if n < 10 then (48 + n % 10) :: acc
    else natDecCore fuel (n / 10) ((48 + n % 10) :: acc)

/-- Decimal rendering of a nonnegative integer, as Rust Display for usize. -/
def natDec (n : Nat) : List Nat := natDecCore (n + 1) n []

/-- contents/mod.rs struct SharedLibrary. -/
structure SharedLibrary where
  name : List Nat
  sover : List Nat
deriving DecidableEq

/-- contents/mod.rs enum File. -/
inductive File where
  | SharedLibrary (s : SharedLibrary)
  | Normal (name : List Nat)
deriving DecidableEq

/-- SharedLibrary::from_bytes: from_utf8_lossy then trim_end on the soname. -/
def SharedLibrary.from_bytes (soname : List Nat) (sover : List Nat) : SharedLibrary :=
  ⟨trimEnd soname, sover⟩

/-- File::so. -/
def File.so (soname : List Nat) (sover : List Nat) : File :=
  .SharedLibrary (SharedLibrary.from_bytes soname sover)

/-- File::normal: from_utf8_lossy then trim_end on the name. -/
def File.normal (name : List Nat) : File := .Normal (trimEnd name)

/-- contents/mod.rs struct ContentsPath; parent is the PathBuf as a string. -/
structure ContentsPath where
  parent : List Nat
  file : File
deriving DecidableEq

/-- contents/mod.rs struct PackageName (the section field is renamed because
section is a Lean keyword). -/
structure PackageName where
  area : Option (List Nat)
  sectionName : Option (List Nat)
  name : List Nat
deriving DecidableEq

/-- PackageName::from_bytes (from_utf8_lossy is the identity in this model). -/
def PackageName.from_bytes (area sectionName : Option (List Nat)) (name : List Nat) :
    PackageName := ⟨area, sectionName, name⟩

/-- contents/mod.rs struct ContentsEntry. -/
structure ContentsEntry where
  path : ContentsPath
  packages : List PackageName
deriving DecidableEq

/-- nom tag combinator on byte lists. -/
def tagBytes : List Nat → List Nat → Option (List Nat)
  | [], i => some i
  | _ :: _, [] => none
  | t :: ts, c :: cs => if t = c then tagBytes ts cs else none

/-- take_path_segment: terminated(take_while(is_file_name), tag "/").
Returns (remaining, segment). -/
def take_path_segment (i : List Nat) : Option (List Nat × List Nat) :=
  match i.dropWhile is_file_name with
  | [] => none
  | c :: r => if c = 47 then some (r, i.takeWhile is_file_name) else none

/-- Loop body of many0(take_path_segment); the parser consumes at least one
byte per iteration, so fuel equal to the input length is always enough. -/
def many0_path_segments_core : Nat → List Nat → List (List Nat) × List Nat
  | 0, i => ([], i)
  | fuel + 1, i =>
    match take_path_segment i with
    | none => ([], i)
    | some (r, s) =>
      let p := many0_path_segments_core fuel r
      (s :: p.1, p.2)

/-- many0_path_segments: collects the directory segments and joins them with
a slash, as segments.join(b'/'); returns (remaining, parent string). -/
def many0_path_segments (i : List Nat) : List Nat × List Nat :=
  let p := many0_path_segments_core i.length i
  (p.2, List.intercalate [47] p.1)

/-- sover_segment: preceded(tag ".", take_while1(is_digit)), folded to a
number exactly as the source folds acc * 10 + (digit - b'0'). -/
def sover_segment (i : List Nat) : Option (List Nat × Nat) :=
  match i with
  | [] => none
  | c :: r =>
    if c = 46 then
      if r.takeWhile is_digit = [] then none
      else some (r.dropWhile is_digit,
        (r.takeWhile is_digit).foldl (fun acc d => acc * 10 + (d - 48)) 0)
    else none

/-- Loop body of many0(sover_segment); each success consumes at least one
byte, so fuel equal to the input length is always enough. -/
def many0_sover_segment_core : Nat → List Nat → List Nat × List Nat
  | 0, i => ([], i)
  | fuel + 1, i =>
    match sover_segment i with
    | none => ([], i)
    | some (r, v) =>
      let p := many0_sover_segment_core fuel r
      (v :: p.1, p.2)

/-- many0_sover_segment; returns (remaining, version components). -/
def many0_sover_segment (i : List Nat) : List Nat × List Nat :=
  let p := many0_sover_segment_core i.length i
  (p.2, p.1)

/-- take_file_so: terminated(take_while1(is_soname), tag ".so"),
many0_sover_segment, then take_while1(is_space). -/
def take_file_so (i : List Nat) : Option (List Nat × File) :=
  if i.takeWhile is_soname = [] then none
  else
    match tagBytes [46, 115, 111] (i.dropWhile is_soname) with
    | none => none
    | some r1 =>
      let r2 := (many0_sover_segment r1).1
      let sover := (many0_sover_segment r1).2
      if r2.takeWhile is_space = [] then none
      else some (r2.dropWhile is_space, File.so (i.takeWhile is_soname) sover)

/-- take_file_else: take_while(is_file_name) then a whitespace separator,
both possibly empty, so this parser never fails. -/
def take_file_else (i : List Nat) : Option (List Nat × File) :=
  some ((i.dropWhile is_file_name).dropWhile is_space,
    File.normal (i.takeWhile is_file_name))

/-- take_file: alt((take_file_so, take_file_else)). -/
def take_file (i : List Nat) : Option (List Nat × File) :=
  match take_file_so i with
  | some x => some x
  | none => take_file_else i

/-- take_path: directory segments then the terminal file descriptor. -/
def take_path (i : List Nat) : Option (List Nat × ContentsPath) :=
  let p := many0_path_segments i
  match take_file p.1 with
  | none => none
  | some (r2, f) => some (r2, ContentsPath.mk p.2 f)

/-- take_package_name: take_while1(is_package_name). -/
def take_package_name (i : List Nat) : Option (List Nat × List Nat) :=
  if i.takeWhile is_package_name = [] then none
  else some (i.dropWhile is_package_name, i.takeWhile is_package_name)

/-- take_section: terminated(take_while1(is_section_name), tag "/"). -/
def take_section (i : List Nat) : Option (List Nat × List Nat) :=
  if i.takeWhile is_section_name = [] then none
  else
    match i.dropWhile is_section_name with
    | [] => none
    | c :: r => if c = 47 then some (r, i.takeWhile is_section_name) else none

/-- take_sections: many_m_n(0, 2, take_section); with a lower bound of zero
this never fails, and collects at most two qualifiers. -/
def take_sections (i : List Nat) : List Nat × List (List Nat) :=
  match take_section i with
  | none => (i, [])
  | some (r1, s1) =>
    match take_section r1 with
    | none => (r1, [s1])
    | some (r2, s2) => (r2, [s1, s2])

/-- take_package: qualifiers then the mandatory package name run; the final
catch-all branch corresponds to the unreachable arm in the source, which
cannot fire because take_sections yields at most two qualifiers. -/
def take_package (i : List Nat) : Option (List Nat × PackageName) :=
  match take_package_name (take_sections i).1 with
  | none => none
  | some (r2, nm) =>
    match (take_sections i).2 with
    | [] => some (r2, PackageName.from_bytes none none nm)
    | [s] => some (r2, PackageName.from_bytes none (some s) nm)
    | [a, b] => some (r2, PackageName.from_bytes (some a) (some b) nm)
    | _ => some (r2, PackageName.from_bytes none none nm)

/-- Loop of separated_list1(tag ",", take_package): on element failure after
a comma the separator is not consumed and the list ends; every iteration
consumes at least the comma, so fuel equal to the input length suffices. -/
def packages_loop : Nat → List Nat → List PackageName → List Nat × List PackageName
  | 0, i, acc => (i, acc)
  | fuel + 1, i, acc =>
    match i with
    | [] => (i, acc)
    | c :: r =>
      if c = 44 then
        match take_package r with
        | some (r2, p) => packages_loop fuel r2 (acc ++ [p])
        | none => (c :: r, acc)
      else (c :: r, acc)

/-- take_packages: preceded(separator, separated_list1(tag ",", take_package)). -/
def take_packages (i : List Nat) : Option (List Nat × List PackageName) :=
  match take_package (i.dropWhile is_space) with
  | none => none
  | some (r1, p) =>
    let q := packages_loop r1.length r1 [p]
    some (q.1, q.2)

/-- Result of take_line: the source can panic (out-of-range slice), return a
nom error, or succeed with leftover input and an optional entry. -/
inductive LineResult where
  | panic
  | fail
  | ok (rest : List Nat) (entry : Option ContentsEntry)
deriving DecidableEq

/-- Index of the last byte satisfying is_space, as the reverse scan in
take_line computes it; none when the line holds no space or tab. -/
def lastSpaceIdx : List Nat → Option Nat
  | [] => none
  | c :: r =>
    match lastSpaceIdx r with
    | some i => some (i + 1)
    | none => if is_space c then some 0 else none

/-- take_line: when no space or tab exists, separate stays input.len() and
the slice input[..=separate] overruns the buffer, which panics in Rust; this
is modelled by the panic result. Otherwise the path is parsed from
input[..=separate] and the package list from input[separate..]. -/
def take_line (input : List Nat) : LineResult :=
  match lastSpaceIdx input with
  | none => .panic
  | some separate =>
    match take_path (input.take (separate + 1)) with
    | none => .fail
    | some (_, path) =>
      match take_packages (input.drop separate) with
      | none => .fail
      | some (r, packages) => .ok r (some (ContentsEntry.mk path packages))

/-- One result of BufReader::read_until in the iterator loop: an I/O error
or a chunk of bytes up to and including a newline; end of input is the end
of the list (or an empty chunk). -/
inductive LineRead where
  | ioerr
  | bytes (l : List Nat)
deriving DecidableEq

/-- What one call of ContentsIterator::next produces. -/
inductive IterResult where
  | exhausted
  | panicked
  | yield (entry : ContentsEntry) (rest : List LineRead)
deriving DecidableEq

/-- ContentsIterator::next: read a line; stop on error or empty read; apply
the filter; parse; yield on success, skip and loop on parse failure. -/
def iterNext (f : List Nat → Bool) : List LineRead → IterResult
  | [] => .exhausted
  | .ioerr :: _ => .exhausted
  | .bytes l :: rest =>
    if l = [] then .exhausted
    else if f l then
      match take_line l with
      | .ok _ (some e) => .yield e rest
      | .panic => .panicked
      | _ => iterNext f rest
    else iterNext f rest

/-- Rendering of the version components of a soname, as the Display
implementation of SharedLibrary writes them: a dot before each component. -/
def renderSover (sover : List Nat) : List Nat :=
  (sover.map (fun n => 46 :: natDec n)).flatten

/-- Display for SharedLibrary: name, the .so marker, then the components. -/
def SharedLibrary.render (s : SharedLibrary) : List Nat :=
  s.name ++ [46, 115, 111] ++ renderSover s.sover

/-- Display for File. -/
def File.render : File → List Nat
  | .SharedLibrary s => s.render
  | .Normal n => n

/-- PathBuf::join of the parent with the rendered file name: an absolute
argument replaces the buffer, an empty parent contributes nothing, and a
separator is added unless the parent already ends with one. -/
def pathbufJoin (parent f : List Nat) : List Nat :=
  if f.head? = some 47 then f
  else if parent = [] then f
  else if parent.getLast? = some 47 then parent ++ f
  else parent ++ 47 :: f

/-- Display for ContentsPath. -/
def ContentsPath.render (p : ContentsPath) : List Nat :=
  pathbufJoin p.parent p.file.render

/-- A path built the way the specification describes: an ordered list of
directory segments and a terminal file descriptor. Its text is the segments
joined by slashes with the rendered file appended, which is exactly how a
parsed ContentsPath renders. -/
structure BuiltPath where
  segs : List (List Nat)
  file : File

/-- The path text of a built path. -/
def BuiltPath.render (p : BuiltPath) : List Nat :=
  pathbufJoin (List.intercalate [47] p.segs) p.file.render

/-- The text of a segment list when every segment is followed by a slash,
used to restate the rendered path for parsing. -/
def flatSegs (segs : List (List Nat)) : List Nat :=
  (segs.map (fun s => s ++ [47])).flatten

/-- A directory-segment byte: not a slash and not whitespace (the format
does not support whitespace inside file names). -/
def validSegByte (c : Nat) : Bool := !(c == 47) && !(rustWhitespace c)

/-- A valid directory segment is nonempty. -/
def validSeg (s : List Nat) : Bool := !(s.isEmpty) && s.all validSegByte

/-- A valid terminal descriptor: a shared library has a nonempty soname over
the soname alphabet; a normal file has a nonempty name with no slash and no
whitespace byte. -/
def validFile : File → Bool
  | .SharedLibrary s => !(s.name.isEmpty) && s.name.all is_soname
  | .Normal n => !(n.isEmpty) && n.all validSegByte

/-- A valid built path. -/
def validBuiltPath (p : BuiltPath) : Bool :=
  p.segs.all validSeg && validFile p.file

/-- Rust str::replace of underscore by hyphen followed by to_lowercase,
byte-wise (ASCII). -/
def normalizeName (s : List Nat) : List Nat :=
  (s.map (fun c => if c = 95 then 45 else c)).map
    (fun c => if 65 ≤ c ∧ c ≤ 90 then c + 32 else c)

namespace Translate

/-- spiral/src/translate.rs struct Lib; library_name is normalized at
construction by Lib.new. -/
structure Lib where
  library_name : List Nat
  sover : List Nat
deriving DecidableEq

/-- Lib::new: replace underscores by hyphens and lowercase the name. -/
def Lib.new (library_name : List Nat) (sover : List Nat) : Lib :=
  ⟨normalizeName library_name, sover⟩

/-- Lib::get_lib_name. -/
def Lib.get_lib_name (l : Lib) : List Nat := l.library_name

/-- Lib::get_translated_lib_name: the suffix is the first version component
when the version sequence is nonempty; chars().last().unwrap() on the name
panics when the name is empty, modelled by the none result. -/
def Lib.get_translated_lib_name (l : Lib) : Option (List Nat) :=
  match l.library_name.getLast?, (if l.sover.isEmpty then none else l.sover.head?) with
  | none, _ => none
  | some c, some suffix =>
    if 48 ≤ c ∧ c ≤ 57 then some (l.get_lib_name ++ 45 :: natDec suffix)
    else some (l.get_lib_name ++ natDec suffix)
  | some _, none => some l.get_lib_name

/-- Lib::get_translated_dev_name: the name with the literal -dev appended. -/
def Lib.get_translated_dev_name (l : Lib) : List Nat :=
  l.get_lib_name ++ [45, 100, 101, 118]

end Translate

namespace Metadata

/-- spiral/src/metadata/contents.rs struct Lib. -/
structure Lib where
  package_name : List Nat
  library_name : List Nat
  package_version : Option (List Nat)
  sover : Option (List Nat)
deriving DecidableEq

/-- Lib::new. -/
def Lib.new (package_name library_name : List Nat) (sover : Option (List Nat)) : Lib :=
  ⟨package_name, library_name, none, sover⟩

/-- Lib::get_lib_name: underscores to hyphens, lowercased. -/
def Lib.get_lib_name (l : Lib) : List Nat := normalizeName l.library_name

/-- Lib::get_sover. -/
def Lib.get_sover (l : Lib) : Option (List Nat) := l.sover

/-- Lib::get_translated_lib_name: split_once on the first dot keeps the
prefix, or the whole string when no dot occurs, which is takeWhile of the
bytes different from the dot; chars().last().unwrap() panics on an empty
name, modelled by the none result. -/
def Lib.get_translated_lib_name (l : Lib) : Option (List Nat) :=
  match l.library_name.getLast?,
    (match l.sover with
     | some sover => some (sover.takeWhile (fun c => c ≠ 46))
     | none => none) with
  | none, _ => none
  | some c, some suffix =>
    if 48 ≤ c ∧ c ≤ 57 then some (l.get_lib_name ++ 45 :: suffix)
    else some (l.get_lib_name ++ suffix)
  | some _, none => some l.get_lib_name

/-- Lib::get_translated_dev_name. -/
def Lib.get_translated_dev_name (l : Lib) : List Nat :=
  l.get_lib_name ++ [45, 100, 101, 118]

/-- One shared-library observation of ContentsParser::parse_async, after the
CONTENTS_REGEX captures: the owning package (dep), the raw library name and
the optional soname version string. -/
structure Obs where
  dep : List Nat
  name : List Nat
  sover : Option (List Nat)

/-- The HashMap of parse_async as an association list; insert replaces any
existing binding of the key, as HashMap::insert does. -/
abbrev LibMap := List (List Nat × Lib)

/-- HashMap::get by normalized library name. -/
def mapGet (m : LibMap) (k : List Nat) : Option Lib :=
  (m.find? (fun p => p.1 == k)).map (fun p => p.2)

/-- HashMap::remove. -/
def mapRemove (m : LibMap) (k : List Nat) : LibMap :=
  m.filter (fun p => !(p.1 == k))

/-- HashMap::insert, replacing any existing binding. -/
def mapInsert (m : LibMap) (k : List Nat) (v : Lib) : LibMap :=
  mapRemove m k ++ [(k, v)]

/-- Rust str::matches(".").count(). -/
def countDots (s : List Nat) : Nat := (s.filter (fun c => c == 46)).length

/-- One loop iteration of parse_async for a matched line, with no filter
regex configured (the filter None branch of the source): the specificity
check may remove the previous record, and then insert runs unconditionally. -/
def parse_async_step (ret : LibMap) (o : Obs) : LibMap :=
  let lib := Lib.new o.dep o.name o.sover
  let lib_name := lib.get_lib_name
  let ret1 :=
    match mapGet ret lib_name with
    | some prev_lib =>
      match prev_lib.get_sover, o.sover with
      | some prev_sover_str, some sover_str =>
        if countDots prev_sover_str < countDots sover_str then mapRemove ret lib_name
        else ret
      | none, some _ => mapRemove ret lib_name
      | _, _ => ret
    | none => ret
  mapInsert ret1 lib_name lib

/-- The reduction loop of ContentsParser::parse_async over the stream of
regex-extracted shared-library observations, with no filter configured. -/
def parse_async_reduce (observations : List Obs) : LibMap :=
  observations.foldl parse_async_step []

end Metadata

end Spiral

namespace Spiral

theorem takeWhile_append_stop (p : Nat → Bool) (s : List Nat) (c : Nat) (t : List Nat)
    (hs : ∀ x ∈ s, p x = true) (hc : p c = false) :
    (s ++ c :: t).takeWhile p = s ∧ (s ++ c :: t).dropWhile p = c :: t := by
  induction s with
  | nil => simp [List.takeWhile_cons, List.dropWhile_cons, hc]
  | cons a as ih =>
    have ha : p a = true := hs a (by simp)
    have h2 := ih (fun x hx => hs x (by simp [hx]))
    simp [List.takeWhile_cons, List.dropWhile_cons, ha, h2.1, h2.2]

theorem takeWhile_all_sat (p : Nat → Bool) (s : List Nat)
    (hs : ∀ x ∈ s, p x = true) :
    s.takeWhile p = s ∧ s.dropWhile p = [] := by
  induction s with
  | nil => simp
  | cons a as ih =>
    have ha : p a = true := hs a (by simp)
    have h2 := ih (fun x hx => hs x (by simp [hx]))
    simp [List.takeWhile_cons, List.dropWhile_cons, ha, h2.1, h2.2]

theorem takeWhile_none_sat (p : Nat → Bool) (s : List Nat)
    (hs : ∀ x ∈ s, p x = false) :
    s.takeWhile p = [] ∧ s.dropWhile p = s := by
  cases s with
  | nil => simp
  | cons a as =>
    have ha : p a = false := hs a (by simp)
    simp [List.takeWhile_cons, List.dropWhile_cons, ha]

theorem mem_of_mem_dropWhile (p : Nat → Bool) (s : List Nat) :
    ∀ x ∈ s.dropWhile p, x ∈ s := by
  induction s with
  | nil => simp
  | cons a as ih =>
    intro x hx
    by_cases ha : p a
    · simp [List.dropWhile_cons, ha] at hx
      exact List.mem_cons_of_mem a (ih x hx)
    · simp [List.dropWhile_cons, ha] at hx
      simpa using hx

theorem dropWhile_head_false (p : Nat → Bool) (l : List Nat) (c : Nat) (r : List Nat)
    (h : l.dropWhile p = c :: r) : p c = false := by
  induction l with
  | nil => simp at h
  | cons a as ih =>
    by_cases ha : p a
    · simp [List.dropWhile_cons, ha] at h
      exact ih h
    · simp [List.dropWhile_cons, ha] at h
      rw [← h.1]
      simpa using ha

theorem mem_of_tagBytes (t : List Nat) :
    ∀ i r : List Nat, tagBytes t i = some r → ∀ x ∈ r, x ∈ i := by
  induction t with
  | nil =>
    intro i r h
    simp [tagBytes] at h
    subst h
    exact fun x hx => hx
  | cons a as ih =>
    intro i r h
    cases i with
    | nil => simp [tagBytes] at h
    | cons c cs =>
      simp only [tagBytes] at h
      split at h
      · intro x hx
        exact List.mem_cons_of_mem c (ih cs r h x hx)
      · simp at h

theorem mem_of_sover_segment (i r : List Nat) (v : Nat)
    (h : sover_segment i = some (r, v)) : ∀ x ∈ r, x ∈ i := by
  cases i with
  | nil => simp [sover_segment] at h
  | cons c i0 =>
    simp only [sover_segment] at h
    split at h
    · split at h
      · simp at h
      · simp only [Option.some.injEq, Prod.mk.injEq] at h
        intro x hx
        rw [← h.1] at hx
        exact List.mem_cons_of_mem c (mem_of_mem_dropWhile _ _ x hx)
    · simp at h

theorem mem_of_many0_sover_core (fuel : Nat) :
    ∀ i : List Nat, ∀ x ∈ (many0_sover_segment_core fuel i).2, x ∈ i := by
  induction fuel with
  | zero => intro i x hx; simpa [many0_sover_segment_core] using hx
  | succ f ih =>
    intro i x hx
    simp only [many0_sover_segment_core] at hx
    cases h : sover_segment i with
    | none => rw [h] at hx; simpa using hx
    | some p =>
      rw [h] at hx
      simp only at hx
      exact mem_of_sover_segment i p.1 p.2 (by rw [h]) x (ih p.1 x hx)

theorem mem_of_many0_sover (i : List Nat) :
    ∀ x ∈ (many0_sover_segment i).1, x ∈ i := by
  intro x hx
  exact mem_of_many0_sover_core i.length i x hx

theorem take_file_so_no_space (i : List Nat) (h : ∀ c ∈ i, is_space c = false) :
    take_file_so i = none := by
  unfold take_file_so
  split
  · rfl
  · cases htag : tagBytes [46, 115, 111] (i.dropWhile is_soname) with
    | none => simp
    | some r1 =>
      have hr2 : ∀ c ∈ (many0_sover_segment r1).1, is_space c = false := by
        intro c hc
        exact h c (mem_of_mem_dropWhile _ _ c
          (mem_of_tagBytes _ _ _ htag c (mem_of_many0_sover r1 c hc)))
      have hempty := (takeWhile_none_sat is_space _ hr2).1
      simp [hempty]

theorem trimEnd_no_ws (l : List Nat) (h : ∀ c ∈ l, rustWhitespace c = false) :
    trimEnd l = l := by
  unfold trimEnd
  rw [(takeWhile_none_sat rustWhitespace l.reverse (fun c hc => h c (List.mem_reverse.mp hc))).2]
  exact List.reverse_reverse l

theorem natDecCore_mem (fuel : Nat) :
    ∀ n : Nat, ∀ acc : List Nat, ∀ x ∈ natDecCore fuel n acc,
      (48 ≤ x ∧ x ≤ 57) ∨ x ∈ acc := by
  induction fuel with
  | zero => intro n acc x hx; right; simpa [natDecCore] using hx
  | succ f ih =>
    intro n acc x hx
    simp only [natDecCore] at hx
    have hd : 48 ≤ 48 + n % 10 ∧ 48 + n % 10 ≤ 57 := by
      have := Nat.mod_lt n (show 0 < 10 by decide)
      omega
    split at hx
    · rcases List.mem_cons.mp hx with h1 | h1
      · left; rw [h1]; exact hd
      · right; exact h1
    · rcases ih (n / 10) _ x hx with h1 | h1
      · left; exact h1
      · rcases List.mem_cons.mp h1 with h2 | h2
        · left; rw [h2]; exact hd
        · right; exact h2

theorem natDec_digits (n : Nat) : ∀ x ∈ natDec n, 48 ≤ x ∧ x ≤ 57 := by
  intro x hx
  rcases natDecCore_mem (n + 1) n [] x hx with h | h
  · exact h
  · simp at h

theorem renderSover_bytes (sv : List Nat) :
    ∀ x ∈ renderSover sv, x = 46 ∨ (48 ≤ x ∧ x ≤ 57) := by
  intro x hx
  simp only [renderSover, List.mem_flatten, List.mem_map] at hx
  rcases hx with ⟨l, ⟨n, _, hn⟩, hxl⟩
  rw [← hn] at hxl
  rcases List.mem_cons.mp hxl with h1 | h1
  · left; exact h1
  · right; exact natDec_digits n x h1

theorem byte_props (c : Nat)
    (h : c = 46 ∨ (48 ≤ c ∧ c ≤ 57) ∨ (65 ≤ c ∧ c ≤ 90) ∨ (97 ≤ c ∧ c ≤ 122) ∨
      c = 43 ∨ c = 45 ∨ c = 95 ∨ c = 115 ∨ c = 111) :
    is_file_name c = true ∧ c ≠ 47 ∧ is_space c = false ∧ rustWhitespace c = false := by
  rcases h with h | h | h | h | h | h | h | h | h <;>
    refine ⟨?_, ?_, ?_, ?_⟩ <;>
    simp only [is_file_name, is_space, rustWhitespace, Bool.or_eq_true, Bool.not_eq_true',
      Bool.or_eq_false_iff, beq_iff_eq, beq_eq_false_iff_ne, ne_eq] <;>
    omega

theorem is_soname_byte (c : Nat) (h : is_soname c = true) :
    is_file_name c = true ∧ c ≠ 47 ∧ is_space c = false ∧ rustWhitespace c = false := by
  apply byte_props
  simp only [is_soname, is_alphanumeric, Bool.or_eq_true, Bool.and_eq_true,
    decide_eq_true_eq, beq_iff_eq] at h
  tauto

theorem validSegByte_byte (c : Nat) (h : validSegByte c = true) :
    is_file_name c = true ∧ c ≠ 47 ∧ is_space c = false ∧ rustWhitespace c = false := by
  simp only [validSegByte, Bool.and_eq_true, Bool.not_eq_true', beq_eq_false_iff_ne, ne_eq] at h
  have h47 := h.1
  have hws := h.2
  simp only [rustWhitespace, Bool.or_eq_false_iff, beq_eq_false_iff_ne, ne_eq] at hws
  refine ⟨?_, h47, ?_, ?_⟩ <;>
    simp only [is_file_name, is_space, rustWhitespace, Bool.or_eq_true, Bool.not_eq_true',
      Bool.or_eq_false_iff, beq_iff_eq, beq_eq_false_iff_ne, ne_eq] <;>
    omega

theorem render_bytes (f : File) (h : validFile f = true) :
    ∀ x ∈ f.render, is_file_name x = true ∧ x ≠ 47 ∧ is_space x = false ∧
      rustWhitespace x = false := by
  intro x hx
  cases f with
  | Normal n =>
    simp only [validFile, Bool.and_eq_true, List.all_eq_true] at h
    exact validSegByte_byte x (h.2 x (by simpa [File.render] using hx))
  | SharedLibrary s =>
    simp only [validFile, Bool.and_eq_true, List.all_eq_true] at h
    simp only [File.render, SharedLibrary.render, List.mem_append] at hx
    rcases hx with (hx | hx) | hx
    · exact is_soname_byte x (h.2 x hx)
    · apply byte_props
      simp only [List.mem_cons, List.not_mem_nil, or_false] at hx
      tauto
    · apply byte_props
      rcases renderSover_bytes s.sover x hx with h1 | h1
      · tauto
      · tauto

theorem render_ne_nil (f : File) (h : validFile f = true) : f.render ≠ [] := by
  cases f with
  | Normal n =>
    simp only [validFile, Bool.and_eq_true] at h
    simpa [File.render, List.isEmpty_iff] using h.1
  | SharedLibrary s =>
    simp [File.render, SharedLibrary.render]

theorem take_file_render (f : File) (h : validFile f = true) :
    take_file f.render = some ([], File.Normal f.render) := by
  have hso : take_file_so f.render = none :=
    take_file_so_no_space _ (fun c hc => (render_bytes f h c hc).2.2.1)
  have hall : ∀ x ∈ f.render, is_file_name x = true :=
    fun x hx => (render_bytes f h x hx).1
  have htw := takeWhile_all_sat is_file_name f.render hall
  unfold take_file
  rw [hso]
  unfold take_file_else
  rw [htw.1, htw.2]
  simp only [List.dropWhile_nil]
  rw [show File.normal f.render = File.Normal f.render from by
    unfold File.normal
    rw [trimEnd_no_ws _ (fun c hc => (render_bytes f h c hc).2.2.2)]]

theorem take_path_segment_stop (t : List Nat) (h47 : 47 ∉ t) :
    take_path_segment t = none := by
  unfold take_path_segment
  cases h : t.dropWhile is_file_name with
  | nil => rfl
  | cons c r =>
    have hc : is_file_name c = false := dropWhile_head_false _ _ _ _ h
    have hcm : c ∈ t := mem_of_mem_dropWhile _ _ c (by rw [h]; simp)
    have : ¬ c = 47 := fun hcc => h47 (hcc ▸ hcm)
    simp [this]

theorem many0_core_flat (segs : List (List Nat)) (tail : List Nat)
    (hsegs : ∀ s ∈ segs, ∀ c ∈ s, is_file_name c = true ∧ c ≠ 47)
    (htail : take_path_segment tail = none) :
    ∀ fuel, (flatSegs segs ++ tail).length ≤ fuel →
      many0_path_segments_core fuel (flatSegs segs ++ tail) = (segs, tail) := by
  induction segs with
  | nil =>
    intro fuel hf
    cases fuel with
    | zero =>
      simp only [flatSegs, List.map_nil, List.flatten_nil, List.nil_append,
        List.length_nil] at hf ⊢
      have : tail = [] := List.eq_nil_of_length_eq_zero (Nat.le_zero.mp hf)
      simp [many0_path_segments_core, this]
    | succ f =>
      simp only [flatSegs, List.map_nil, List.flatten_nil, List.nil_append]
      simp [many0_path_segments_core, htail]
  | cons s ss ih =>
    intro fuel hf
    have hflat : flatSegs (s :: ss) ++ tail = s ++ 47 :: (flatSegs ss ++ tail) := by
      simp [flatSegs, List.flatten_cons, List.append_assoc]
    rw [hflat] at hf ⊢
    cases fuel with
    | zero =>
      exfalso
      simp only [List.length_append, List.length_cons] at hf
      omega
    | succ f =>
      have hs := hsegs s (by simp)
      have hseg := takeWhile_append_stop is_file_name s 47 (flatSegs ss ++ tail)
        (fun x hx => (hs x hx).1) (by decide)
      have hstep : take_path_segment (s ++ 47 :: (flatSegs ss ++ tail)) =
          some (flatSegs ss ++ tail, s) := by
        unfold take_path_segment
        rw [hseg.2, hseg.1]
        simp
      simp only [many0_path_segments_core, hstep]
      have hlen : (flatSegs ss ++ tail).length ≤ f := by
        simp only [List.length_append, List.length_cons] at hf ⊢
        omega
      rw [ih (fun t ht c hc => hsegs t (by simp [ht]) c hc) f hlen]

theorem many0_path_segments_flat (segs : List (List Nat)) (tail : List Nat)
    (hsegs : ∀ s ∈ segs, ∀ c ∈ s, is_file_name c = true ∧ c ≠ 47)
    (htail : take_path_segment tail = none) :
    many0_path_segments (flatSegs segs ++ tail) = (tail, List.intercalate [47] segs) := by
  unfold many0_path_segments
  rw [many0_core_flat segs tail hsegs htail _ (Nat.le_refl _)]

theorem intercalate_slash_nil : List.intercalate [47] ([] : List (List Nat)) = [] := by
  simp [List.intercalate]

theorem intercalate_slash_single (s : List Nat) :
    List.intercalate [47] [s] = s := by
  simp [List.intercalate]

theorem intercalate_slash_cons (s s2 : List Nat) (ss : List (List Nat)) :
    List.intercalate [47] (s :: s2 :: ss) =
      s ++ 47 :: List.intercalate [47] (s2 :: ss) := by
  simp [List.intercalate, List.intersperse]

theorem intercalate_slash_ne_nil (s : List Nat) (ss : List (List Nat)) (hs : s ≠ []) :
    List.intercalate [47] (s :: ss) ≠ [] := by
  cases ss with
  | nil => rw [intercalate_slash_single]; exact hs
  | cons s2 ss2 =>
    rw [intercalate_slash_cons]
    simp

theorem intercalate_slash_getLast (segs : List (List Nat))
    (hsegs : ∀ s ∈ segs, s ≠ [] ∧ ∀ c ∈ s, c ≠ 47) (hne : segs ≠ []) :
    ∃ c, (List.intercalate [47] segs).getLast? = some c ∧ c ≠ 47 := by
  induction segs with
  | nil => exact absurd rfl hne
  | cons s ss ih =>
    cases ss with
    | nil =>
      rw [intercalate_slash_single]
      have hs := hsegs s (by simp)
      obtain ⟨c, hc⟩ : ∃ c, s.getLast? = some c := by
        cases h2 : s.getLast? with
        | none => exact absurd (List.getLast?_eq_none_iff.mp h2) hs.1
        | some a => exact ⟨a, rfl⟩
      exact ⟨c, hc, hs.2 c (List.mem_of_mem_getLast? (by rw [hc]; rfl))⟩
    | cons s2 ss2 =>
      rw [intercalate_slash_cons]
      obtain ⟨c, hc, hc47⟩ := ih (fun t ht => hsegs t (by simp [ht])) (by simp)
      refine ⟨c, ?_, hc47⟩
      rw [List.getLast?_append_cons]
      have hne2 : List.intercalate [47] (s2 :: ss2) ≠ [] :=
        intercalate_slash_ne_nil s2 ss2 (hsegs s2 (by simp)).1
      cases h2 : List.intercalate [47] (s2 :: ss2) with
      | nil => exact absurd h2 hne2
      | cons d ds =>
        rw [h2] at hc
        rw [show (47 :: d :: ds).getLast? = (d :: ds).getLast? from
          List.getLast?_append_cons [47] d ds]
        exact hc

theorem intercalate_slash_append (segs : List (List Nat)) (hne : segs ≠ [])
    (hsegs : ∀ s ∈ segs, s ≠ []) :
    List.intercalate [47] segs ++ [47] = flatSegs segs := by
  induction segs with
  | nil => exact absurd rfl hne
  | cons s ss ih =>
    cases ss with
    | nil =>
      rw [intercalate_slash_single]
      simp [flatSegs]
    | cons s2 ss2 =>
      rw [intercalate_slash_cons]
      have := ih (by simp) (fun t ht => hsegs t (by simp [ht]))
      simp only [flatSegs, List.map_cons, List.flatten_cons] at this ⊢
      rw [List.append_assoc, List.cons_append, this]
      simp

theorem pathbufJoin_flat (segs : List (List Nat)) (f : List Nat)
    (hsegs : ∀ s ∈ segs, s ≠ [] ∧ ∀ c ∈ s, c ≠ 47)
    (hf : f.head? ≠ some 47) :
    pathbufJoin (List.intercalate [47] segs) f = flatSegs segs ++ f := by
  unfold pathbufJoin
  rw [if_neg hf]
  cases segs with
  | nil =>
    rw [intercalate_slash_nil, if_pos rfl]
    simp [flatSegs]
  | cons s ss =>
    have hne : List.intercalate [47] (s :: ss) ≠ [] :=
      intercalate_slash_ne_nil s ss (hsegs s (by simp)).1
    rw [if_neg hne]
    obtain ⟨c, hc, hc47⟩ := intercalate_slash_getLast (s :: ss) hsegs (by simp)
    rw [if_neg (by rw [hc]; simp [hc47])]
    rw [show List.intercalate [47] (s :: ss) ++ 47 :: f =
      (List.intercalate [47] (s :: ss) ++ [47]) ++ f from by simp]
    rw [intercalate_slash_append (s :: ss) (by simp) (fun t ht => (hsegs t ht).1)]

theorem head?_mem (l : List Nat) (c : Nat) (h : l.head? = some c) : c ∈ l := by
  cases l with
  | nil => simp at h
  | cons a as =>
    simp only [List.head?_cons, Option.some.injEq] at h
    rw [← h]
    simp

/-- C3: for every valid built path, an ordered list of nonempty directory
segments and a terminal file or shared-library descriptor, parsing the
rendered path text with take_path and re-rendering the parsed structure
yields the original path text. -/
theorem take_path_render_roundtrip (p : BuiltPath) (h : validBuiltPath p = true) :
    ∃ q : ContentsPath, take_path p.render = some ([], q) ∧ q.render = p.render := by
  have h0 := h
  simp only [validBuiltPath, Bool.and_eq_true, List.all_eq_true] at h0
  obtain ⟨hsegs, hfile⟩ := h0
  have hsegP : ∀ s ∈ p.segs, s ≠ [] ∧ ∀ c ∈ s, validSegByte c = true := by
    intro s hs
    have h2 := hsegs s hs
    simp only [validSeg, Bool.and_eq_true, Bool.not_eq_true', List.all_eq_true] at h2
    exact ⟨by simpa [List.isEmpty_iff] using h2.1, h2.2⟩
  have hrb := render_bytes p.file hfile
  have h47 : 47 ∉ p.file.render := fun hc => (hrb 47 hc).2.1 rfl
  have hhead : p.file.render.head? ≠ some 47 := fun hh => h47 (head?_mem _ _ hh)
  have hrender : p.render = flatSegs p.segs ++ p.file.render := by
    unfold BuiltPath.render
    exact pathbufJoin_flat p.segs p.file.render
      (fun s hs => ⟨(hsegP s hs).1,
        fun c hc => (validSegByte_byte c ((hsegP s hs).2 c hc)).2.1⟩)
      hhead
  have hmany := many0_path_segments_flat p.segs p.file.render
    (fun s hs c hc => ⟨(validSegByte_byte c ((hsegP s hs).2 c hc)).1,
      (validSegByte_byte c ((hsegP s hs).2 c hc)).2.1⟩)
    (take_path_segment_stop _ h47)
  refine ⟨ContentsPath.mk (List.intercalate [47] p.segs) (.Normal p.file.render), ?_, ?_⟩
  · rw [hrender]
    unfold take_path
    rw [hmany]
    simp only
    rw [take_file_render p.file hfile]
  · rfl

theorem take_sections_le_two (i : List Nat) : (take_sections i).2.length ≤ 2 := by
  unfold take_sections
  cases h1 : take_section i with
  | none => simp
  | some p =>
    obtain ⟨r1, s1⟩ := p
    cases h2 : take_section r1 with
    | none => simp [h2]
    | some q => obtain ⟨r2, s2⟩ := q; simp [h2]

/-- C7: every PackageName produced by take_package follows the
qualifier-count-to-field mapping, so area is present only with section. -/
theorem take_package_qualifier_mapping (i r : List Nat) (pkg : PackageName)
    (h : take_package i = some (r, pkg)) :
    (((take_sections i).2 = [] ∧ pkg.area = none ∧ pkg.sectionName = none) ∨
     (∃ a, (take_sections i).2 = [a] ∧ pkg.area = none ∧ pkg.sectionName = some a) ∨
     (∃ a b, (take_sections i).2 = [a, b] ∧ pkg.area = some a ∧
       pkg.sectionName = some b)) ∧
    (pkg.area.isSome = true → pkg.sectionName.isSome = true) := by
  unfold take_package at h
  cases hn : take_package_name (take_sections i).1 with
  | none => rw [hn] at h; simp at h
  | some q =>
    rw [hn] at h
    obtain ⟨r2, nm⟩ := q
    rcases hss : (take_sections i).2 with _ | ⟨a, _ | ⟨b, _ | _⟩⟩
    · rw [hss] at h
      simp only [PackageName.from_bytes, Option.some.injEq, Prod.mk.injEq] at h
      rw [← h.2]
      exact ⟨Or.inl ⟨rfl, rfl, rfl⟩, by simp⟩
    · rw [hss] at h
      simp only [PackageName.from_bytes, Option.some.injEq, Prod.mk.injEq] at h
      rw [← h.2]
      exact ⟨Or.inr (Or.inl ⟨a, rfl, rfl, rfl⟩), by simp⟩
    · rw [hss] at h
      simp only [PackageName.from_bytes, Option.some.injEq, Prod.mk.injEq] at h
      rw [← h.2]
      exact ⟨Or.inr (Or.inr ⟨a, b, rfl, rfl, rfl⟩), by simp⟩
    · exfalso
      have hle := take_sections_le_two i
      rw [hss] at hle
      simp at hle

theorem c7_witness :
    (((take_sections (strBytes "non-free/devel/cuda\n")).2 = [] ∧
        (PackageName.mk (some (strBytes "non-free")) (some (strBytes "devel"))
          (strBytes "cuda")).area = none ∧
        (PackageName.mk (some (strBytes "non-free")) (some (strBytes "devel"))
          (strBytes "cuda")).sectionName = none) ∨
     (∃ a, (take_sections (strBytes "non-free/devel/cuda\n")).2 = [a] ∧
        (PackageName.mk (some (strBytes "non-free")) (some (strBytes "devel"))
          (strBytes "cuda")).area = none ∧
        (PackageName.mk (some (strBytes "non-free")) (some (strBytes "devel"))
          (strBytes "cuda")).sectionName = some a) ∨
     (∃ a b, (take_sections (strBytes "non-free/devel/cuda\n")).2 = [a, b] ∧
        (PackageName.mk (some (strBytes "non-free")) (some (strBytes "devel"))
          (strBytes "cuda")).area = some a ∧
        (PackageName.mk (some (strBytes "non-free")) (some (strBytes "devel"))
          (strBytes "cuda")).sectionName = some b)) ∧
    ((PackageName.mk (some (strBytes "non-free")) (some (strBytes "devel"))
        (strBytes "cuda")).area.isSome = true →
      (PackageName.mk (some (strBytes "non-free")) (some (strBytes "devel"))
        (strBytes "cuda")).sectionName.isSome = true) :=
  take_package_qualifier_mapping (strBytes "non-free/devel/cuda\n") (strBytes "\n")
    (PackageName.mk (some (strBytes "non-free")) (some (strBytes "devel")) (strBytes "cuda"))
    (by decide)

/-- C6: take_file tries the shared-library branch first and returns its
result whenever it succeeds; the libnuma scenario line parses to the
expected entry. -/
theorem take_file_so_priority :
    (∀ (i r : List Nat) (f : File), take_file_so i = some (r, f) →
      take_file i = some (r, f)) ∧
    take_line (strBytes "./usr/lib/libnuma.so.1.1.4   admin/numactl\n") =
      LineResult.ok (strBytes "\n") (some (ContentsEntry.mk
        (ContentsPath.mk (strBytes "./usr/lib")
          (File.SharedLibrary (SharedLibrary.mk (strBytes "libnuma") [1, 1, 4])))
        [PackageName.mk none (some (strBytes "admin")) (strBytes "numactl")])) := by
  constructor
  · intro i r f h
    unfold take_file
    rw [h]
  · decide

theorem c6_witness :
    take_file (strBytes "libnuma.so.1 ") =
      some ([], File.so (strBytes "libnuma") [1]) :=
  take_file_so_priority.1 (strBytes "libnuma.so.1 ") [] (File.so (strBytes "libnuma") [1])
    (by decide)

/-- C2 (code bug evidence): a line without any space or tab byte makes
take_line slice past the end of the buffer, a panic in the source, instead
of being skipped; the iterator then panics and never reaches the well formed
line that follows. -/
theorem take_line_no_whitespace_panics :
    take_line (strBytes "abc\n") = LineResult.panic ∧
    iterNext (fun _ => true) [LineRead.bytes (strBytes "abc\n"),
      LineRead.bytes (strBytes "./usr/bin/bash   shells/bash\n")] =
      IterResult.panicked :=
  ⟨by decide, by decide⟩

/-- C5 counterexample: a package reference with three slash-terminated
qualifiers does not make the line fail; take_line yields an entry with the
first two qualifiers as area and section and the third as the name, and the
iterator yields that entry instead of skipping the line. -/
theorem take_line_three_qualifiers_not_skipped :
    take_line (strBytes "x a/b/c/nm\n") = LineResult.ok (strBytes "/nm\n")
      (some (ContentsEntry.mk (ContentsPath.mk [] (File.Normal (strBytes "x")))
        [PackageName.mk (some (strBytes "a")) (some (strBytes "b")) (strBytes "c")])) ∧
    iterNext (fun _ => true) [LineRead.bytes (strBytes "x a/b/c/nm\n")] =
      IterResult.yield
        (ContentsEntry.mk (ContentsPath.mk [] (File.Normal (strBytes "x")))
          [PackageName.mk (some (strBytes "a")) (some (strBytes "b")) (strBytes "c")])
        [] :=
  ⟨by decide, by decide⟩

/-- C5 (amended): the qualifier grammar consumes at most two qualifiers and
never fails by itself; a line with three qualifiers is not rejected, as the
concrete line shows, so more than two qualifiers is not by itself a
skip-triggering grammar error. -/
theorem take_sections_at_most_two :
    (∀ i : List Nat, (take_sections i).2.length ≤ 2) ∧
    take_line (strBytes "x a/b/c/nm\n") = LineResult.ok (strBytes "/nm\n")
      (some (ContentsEntry.mk (ContentsPath.mk [] (File.Normal (strBytes "x")))
        [PackageName.mk (some (strBytes "a")) (some (strBytes "b")) (strBytes "c")])) :=
  ⟨take_sections_le_two, by decide⟩

/-- C9: end of input and a read error both end the iteration with the same
exhausted outcome, and a line whose parse merely fails is discarded, the
iteration continuing with the remaining input. -/
theorem iter_end_and_parse_failure_policy (f : List Nat → Bool) :
    iterNext f [] = IterResult.exhausted ∧
    (∀ rest, iterNext f (LineRead.ioerr :: rest) = IterResult.exhausted) ∧
    (∀ l rest, l ≠ [] → f l = true → take_line l = LineResult.fail →
      iterNext f (LineRead.bytes l :: rest) = iterNext f rest) := by
  refine ⟨rfl, fun rest => rfl, ?_⟩
  intro l rest hl hf hfail
  simp [iterNext, hl, hf, hfail]

theorem c9_witness :
    iterNext (fun _ => true) [LineRead.bytes (strBytes "x \n")] =
      IterResult.exhausted := by
  have h := iter_end_and_parse_failure_policy (fun _ => true)
  rw [h.2.2 (strBytes "x \n") [] (by decide) rfl (by decide)]
  exact h.1

/-- C1 (code bug evidence): with two observations of the same library whose
version strings tie in specificity, the reducer retains the later one, and a
later observation with no version string even replaces a versioned record,
because insert runs unconditionally after the specificity check. -/
theorem parse_async_reduce_last_seen_wins :
    Metadata.mapGet (Metadata.parse_async_reduce
      [Metadata.Obs.mk (strBytes "a") (strBytes "libfoo") (some (strBytes "1")),
       Metadata.Obs.mk (strBytes "b") (strBytes "libfoo") (some (strBytes "1"))])
      (strBytes "libfoo") =
      some (Metadata.Lib.mk (strBytes "b") (strBytes "libfoo") none
        (some (strBytes "1"))) ∧
    Metadata.mapGet (Metadata.parse_async_reduce
      [Metadata.Obs.mk (strBytes "a") (strBytes "libbar") (some (strBytes "1.2")),
       Metadata.Obs.mk (strBytes "b") (strBytes "libbar") none])
      (strBytes "libbar") =
      some (Metadata.Lib.mk (strBytes "b") (strBytes "libbar") none none) :=
  ⟨by decide, by decide⟩

/-- C4: with a nonempty name, a nonempty version sequence appends exactly
the first component, hyphen-joined when the name ends in a digit, and an
absent version sequence leaves the name unchanged; stated for both Lib
implementations. -/
theorem translated_lib_name_suffix_rule :
    (∀ (n : List Nat) (c : Nat) (v : Nat) (vs : List Nat), n.getLast? = some c →
      (Translate.Lib.mk n (v :: vs)).get_translated_lib_name =
        some (n ++ (if 48 ≤ c ∧ c ≤ 57 then 45 :: natDec v else natDec v))) ∧
    (∀ (n : List Nat) (c : Nat), n.getLast? = some c →
      (Translate.Lib.mk n []).get_translated_lib_name = some n) ∧
    (∀ (pkg n : List Nat) (pv : Option (List Nat)) (c : Nat) (s : List Nat),
      n.getLast? = some c →
      (Metadata.Lib.mk pkg n pv (some s)).get_translated_lib_name =
        some (normalizeName n ++ (if 48 ≤ c ∧ c ≤ 57
          then 45 :: s.takeWhile (fun b => b ≠ 46)
          else s.takeWhile (fun b => b ≠ 46)))) ∧
    (∀ (pkg n : List Nat) (pv : Option (List Nat)) (c : Nat), n.getLast? = some c →
      (Metadata.Lib.mk pkg n pv none).get_translated_lib_name =
        some (normalizeName n)) := by
  refine ⟨?_, ?_, ?_, ?_⟩
  · intro n c v vs hc
    by_cases hd : 48 ≤ c ∧ c ≤ 57 <;>
      simp [Translate.Lib.get_translated_lib_name, Translate.Lib.get_lib_name, hc, hd]
  · intro n c hc
    simp [Translate.Lib.get_translated_lib_name, Translate.Lib.get_lib_name, hc]
  · intro pkg n pv c s hc
    by_cases hd : 48 ≤ c ∧ c ≤ 57 <;>
      simp [Metadata.Lib.get_translated_lib_name, Metadata.Lib.get_lib_name, hc, hd]
  · intro pkg n pv c hc
    simp [Metadata.Lib.get_translated_lib_name, Metadata.Lib.get_lib_name, hc]

theorem c4_witness :
    (Translate.Lib.mk (strBytes "libiso9660") [11, 0, 0]).get_translated_lib_name =
      some (strBytes "libiso9660" ++
        (if 48 ≤ (48 : Nat) ∧ (48 : Nat) ≤ 57 then 45 :: natDec 11 else natDec 11)) :=
  translated_lib_name_suffix_rule.1 (strBytes "libiso9660") 48 11 [0, 0] (by decide)

/-- C8: the development name is always the normalized library name with the
literal -dev appended, for both Lib implementations and any version data. -/
theorem translated_dev_name_unconditional :
    (∀ (n : List Nat) (sv : List Nat),
      (Translate.Lib.new n sv).get_translated_dev_name =
        normalizeName n ++ [45, 100, 101, 118]) ∧
    (∀ l : Metadata.Lib,
      l.get_translated_dev_name = normalizeName l.library_name ++ [45, 100, 101, 118]) :=
  ⟨fun _ _ => rfl, fun _ => rfl⟩

/-- C10: the translated runtime name accessor is total exactly on Libs with
a nonempty library name: nonempty names never hit the unwrap panic, the
empty name always does, in both Lib implementations. -/
theorem translated_lib_name_empty_name_panics :
    (∀ l : Translate.Lib, l.library_name ≠ [] →
      l.get_translated_lib_name.isSome = true) ∧
    (∀ l : Translate.Lib, l.library_name = [] → l.get_translated_lib_name = none) ∧
    (∀ l : Metadata.Lib, l.library_name ≠ [] →
      l.get_translated_lib_name.isSome = true) ∧
    (∀ l : Metadata.Lib, l.library_name = [] → l.get_translated_lib_name = none) := by
  refine ⟨?_, ?_, ?_, ?_⟩
  · intro l hl
    obtain ⟨c, hc⟩ : ∃ c, l.library_name.getLast? = some c := by
      cases h2 : l.library_name.getLast? with
      | none => exact absurd (List.getLast?_eq_none_iff.mp h2) hl
      | some a => exact ⟨a, rfl⟩
    unfold Translate.Lib.get_translated_lib_name
    rw [hc]
    cases hv : (if l.sover.isEmpty then none else l.sover.head?) with
    | none => simp
    | some v => by_cases hd : 48 ≤ c ∧ c ≤ 57 <;> simp [hd]
  · intro l hl
    simp [Translate.Lib.get_translated_lib_name, hl]
  · intro l hl
    obtain ⟨c, hc⟩ : ∃ c, l.library_name.getLast? = some c := by
      cases h2 : l.library_name.getLast? with
      | none => exact absurd (List.getLast?_eq_none_iff.mp h2) hl
      | some a => exact ⟨a, rfl⟩
    unfold Metadata.Lib.get_translated_lib_name
    rw [hc]
    cases hv : (match l.sover with
      | some sover => some (sover.takeWhile (fun c => c ≠ 46))
      | none => none) with
    | none => simp
    | some v => by_cases hd : 48 ≤ c ∧ c ≤ 57 <;> simp [hd]
  · intro l hl
    simp [Metadata.Lib.get_translated_lib_name, hl]

theorem c10_witness :
    (Translate.Lib.mk (strBytes "libnss3") []).get_translated_lib_name.isSome = true ∧
    (Translate.Lib.mk [] []).get_translated_lib_name = none ∧
    (Metadata.Lib.mk (strBytes "nss") (strBytes "libnss3") none
      none).get_translated_lib_name.isSome = true ∧
    (Metadata.Lib.mk [] [] none none).get_translated_lib_name = none :=
  ⟨translated_lib_name_empty_name_panics.1 _ (by decide),
   translated_lib_name_empty_name_panics.2.1 _ rfl,
   translated_lib_name_empty_name_panics.2.2.1 _ (by decide),
   translated_lib_name_empty_name_panics.2.2.2 _ rfl⟩

theorem c3_witness :
    ∃ q : ContentsPath,
      take_path (BuiltPath.mk [strBytes ".", strBytes "usr", strBytes "lib"]
        (File.SharedLibrary (SharedLibrary.mk (strBytes "libnuma") [1, 1, 4]))).render =
        some ([], q) ∧
      q.render = (BuiltPath.mk [strBytes ".", strBytes "usr", strBytes "lib"]
        (File.SharedLibrary (SharedLibrary.mk (strBytes "libnuma") [1, 1, 4]))).render :=
  take_path_render_roundtrip
    (BuiltPath.mk [strBytes ".", strBytes "usr", strBytes "lib"]
      (File.SharedLibrary (SharedLibrary.mk (strBytes "libnuma") [1, 1, 4])))
    (by decide)

end Spiral
